import Mathlib

/-!
Verification development for the cryfa FASTA/FASTQ compaction and
encryption tool.  The embedding below follows `src/src/EnDecrypto.cpp`
and `src/unnamed/part_000` (cryfa.cpp, the `main` driver).

Modelling conventions.
* Bytes are `Nat` values in `0 .. 255`; byte strings are `List Nat`.
* A text file, as consumed through repeated `std::getline`, is a
  `List (List Nat)` of lines with the newline delimiters stripped.
* C++ unsigned arithmetic is `Nat` with an explicit `% 2 ^ 32` or
  `% 2 ^ 64` wherever the source computes in `u32` / `u64`.
* Functions declared in headers that are not part of the source tree
  (`pack.h`, `def.h`, `fcn.h`, `EnDecrypto.h`) are modelled from the
  specification; each such definition carries a doc comment starting
  with "Modelled from the spec:".
-/

namespace Cryfa

/-! ## Decimal ASCII rendering and parsing

`std::to_string` on an unsigned value produces its decimal digits,
most significant first; the reverse direction is the digit loop that
`stoull` performs on the chunk-length field of a frame.  A fuel
parameter keeps the recursion structural so that terms reduce inside
`decide`. -/

/-- Auxiliary for `decAscii`: `fuel` bounds the recursion depth. -/
def decAsciiAux : Nat → Nat → List Nat
  | 0, _ => []
  | fuel + 1, n => if n < 10 then [48 + n] else decAsciiAux fuel (n / 10) ++ [48 + n % 10]

/-- Decimal ASCII bytes of `n`, most significant digit first: the bytes
`std::to_string(n)` yields for an unsigned value. -/
def decAscii (n : Nat) : List Nat := decAsciiAux (n + 1) n

/-- The digit-accumulating loop of `stoull` / `stoi` on a run of
decimal ASCII bytes (`src/src/EnDecrypto.cpp`, the `chunkSizeStr`
reads, and `stoi` in `main`). -/
def decodeDec (ds : List Nat) : Nat := ds.foldl (fun a d => a * 10 + (d - 48)) 0

/-! ## The minstd engine behind `my_srand` / `my_rand`

`EnDecrypto::randomEngine` is a `std::minstd_rand0`: the linear
congruential generator `x := 16807 * x mod 2147483647` with increment 0.
`my_srand s` seeds it (state `s mod m`, replaced by 1 when that is 0,
as the C++ standard prescribes for `c = 0`), and `my_rand` advances the
state and returns `e() - e.min()` with `e.min() = 1`. -/

/-- Modulus of `std::minstd_rand0`. -/
def M31 : Nat := 2147483647

/-- Engine state set by `EnDecrypto::my_srand`. -/
def lcgSeed (s : Nat) : Nat := if s % M31 = 0 then 1 else s % M31

/-- One engine step: the state after one `my_rand` call. -/
def lcgNext (x : Nat) : Nat := 16807 * x % M31

/-- The value `my_rand()` returns when the engine state is `x`
(the engine advances first, then subtracts `min() = 1`). -/
def myRandVal (x : Nat) : Nat := lcgNext x - 1

/-! ## Key and IV derivation (`EnDecrypto::buildKey` / `buildIV`)

The password is read from the key file; both derivations run
`for (byte i = (byte) pwd.size(); i--;)
     seed += ((u64) pwd[i] * my_rand()) + my_rand();`
followed by `seed %= 4294967295`.  The loop index descends, so the
password is consumed from its last byte to its first; the `(byte)`
cast truncates the length to its low 8 bits.  C++ leaves the relative
evaluation order of the two `my_rand()` calls unspecified; `seedLoop`
takes the left operand first and `seedLoopR` takes the right operand
first, and the claimed formula differs from both. -/

/-- The accumulation loop of `buildKey`/`buildIV`, left operand of `+`
evaluated first: per character `seed += c * r1 + r2` in wrapping `u64`
arithmetic, where `r1, r2` are the next two `my_rand` outputs. -/
def seedLoop : List Nat → Nat → Nat → Nat
  | [], seed, _ => seed
  | c :: rest, seed, x =>
    seedLoop rest ((seed + (c * myRandVal x + myRandVal (lcgNext x))) % 2 ^ 64)
      (lcgNext (lcgNext x))

/-- The same loop with the right operand of `+` evaluated first:
per character `seed += c * r2 + r1`. -/
def seedLoopR : List Nat → Nat → Nat → Nat
  | [], seed, _ => seed
  | c :: rest, seed, x =>
    seedLoopR rest ((seed + (c * myRandVal (lcgNext x) + myRandVal x)) % 2 ^ 64)
      (lcgNext (lcgNext x))

/-- The loop as claim C2 words it: per character
`seed += c * (rand() + rand())`. -/
def seedLoopSpecC2 : List Nat → Nat → Nat → Nat
  | [], seed, _ => seed
  | c :: rest, seed, x =>
    seedLoopSpecC2 rest ((seed + c * (myRandVal x + myRandVal (lcgNext x))) % 2 ^ 64)
      (lcgNext (lcgNext x))

/-- Argument of `my_srand` in `buildKey`:
`(u32) 24593 * (pwd[0] * pwd[2]) + 49157`. -/
def keySrandArg (pwd : List Nat) : Nat :=
  (24593 * (pwd.getD 0 0 * pwd.getD 2 0) + 49157) % 2 ^ 32

/-- Argument of `my_srand` in `buildIV`:
`(u32) 7919 * pass[2] * pass[5] + 75653`. -/
def ivSrandArg (pwd : List Nat) : Nat :=
  (7919 * pwd.getD 2 0 * pwd.getD 5 0 + 75653) % 2 ^ 32

/-- The password bytes the derivation loop actually visits, in visit
order: indices `(pwd.size() & 0xFF) - 1` down to `0`. -/
def loopBytes (pwd : List Nat) : List Nat := (pwd.take (pwd.length % 256)).reverse

/-- The 32-bit seed `EnDecrypto::buildKey` computes before emitting the
16 key bytes (`seed %= 4294967295`). -/
def buildKeySeed (pwd : List Nat) : Nat :=
  seedLoop (loopBytes pwd) 0 (lcgSeed (keySrandArg pwd)) % 4294967295

/-- The 32-bit seed `EnDecrypto::buildIV` computes before emitting the
16 IV bytes. -/
def buildIVSeed (pwd : List Nat) : Nat :=
  seedLoop (loopBytes pwd) 0 (lcgSeed (ivSrandArg pwd)) % 4294967295

/-- Key seed under the right-operand-first evaluation order. -/
def buildKeySeedR (pwd : List Nat) : Nat :=
  seedLoopR (loopBytes pwd) 0 (lcgSeed (keySrandArg pwd)) % 4294967295

/-- Key seed as the claim's formula
`seed = Σ password[i] * (rand() + rand()) mod 2^32 - 1` prescribes. -/
def keySeedSpecC2 (pwd : List Nat) : Nat :=
  seedLoopSpecC2 (loopBytes pwd) 0 (lcgSeed (keySrandArg pwd)) % 4294967295

/-- `j`-th `my_rand` output (0-based) after seeding the engine with
state `x0`. -/
def randAt (x0 : Nat) (j : Nat) : Nat := myRandVal (lcgNext^[j] x0)

/-- Closed-form sum of the derivation loop over stream outputs:
`Σ over k of bytes[k] * r(2k) + r(2k+1)` with `bytes` in visit order. -/
def sumLoop : List Nat → Nat → Nat
  | [], _ => 0
  | c :: rest, x =>
    c * myRandVal x + myRandVal (lcgNext x) + sumLoop rest (lcgNext (lcgNext x))

/-- The amended derivation formula: sum over the visited password bytes
of `byte * rand() + rand()`, reduced `mod 2^32 - 1`. -/
def derivedSeedFormula (pwd : List Nat) (x0 : Nat) : Nat :=
  ((List.range (loopBytes pwd).length).foldl
    (fun s k => s + (loopBytes pwd).getD k 0 * randAt x0 (2 * k) + randAt x0 (2 * k + 1))
    0) % 4294967295

/-! ## The per-chunk shuffler (`EnDecrypto::shufflePkd` / `unshufflePkd`)

Both sides call `un_shuffleSeedGen()` (a function of the password
alone) and feed the resulting `seed_shared` to a fresh `std::mt19937`;
`std::shuffle` then performs a Fisher-Yates pass, swapping position `i`
(descending) with a position drawn uniformly from `0 .. i`.  The
Mersenne-Twister draw sequence is abstracted as a function
`g : Nat → Nat` of the swap position: `g i % (i + 1)` is the partner
index of position `i`.  Because the seed depends only on the password,
the compressing and decompressing side use the *same* `g`, which is all
the inverse property needs. -/

/-- Exchange the elements at positions `i` and `j` (the `std::swap` a
Fisher-Yates step performs); out-of-range positions leave the list
unchanged. -/
def swapL {α : Type} (l : List α) (i j : Nat) : List α :=
  match l[i]?, l[j]? with
  | some x, some y => (l.set i y).set j x
  | _, _ => l

/-- Fisher-Yates over positions `k, k-1, …, 1`: position `p` is swapped
with position `g p % (p + 1)`. -/
def fyFrom {α : Type} (g : Nat → Nat) : Nat → List α → List α
  | 0, l => l
  | k + 1, l => fyFrom g k (swapL l (k + 1) (g (k + 1) % (k + 2)))

/-- `EnDecrypto::shufflePkd`: `std::shuffle` over the whole packed
chunk, with draw stream `g` (fixed by the password-derived seed). -/
def shufflePkd (g : Nat → Nat) (s : List Nat) : List Nat :=
  fyFrom g (s.length - 1) s

/-- `EnDecrypto::unshufflePkd`: builds `vPos = shuffle of [0, n)` with
the same generator, then writes the `k`-th byte of the shuffled chunk
back to position `vPos[k]` of the buffer (which initially holds the
shuffled bytes themselves). -/
def unshufflePkd (g : Nat → Nat) (s : List Nat) : List Nat :=
  let vPos := fyFrom g (s.length - 1) (List.range s.length)
  (vPos.zip s).foldl (fun acc p => acc.set p.1 p.2) s

/-- `EnDecrypto::un_shuffleSeedGen`: `passDigitsMult` is the wrapping
`u64` product of all password bytes; the engine is seeded with
`20543 * (u32) passDigitsMult + 81647` and
`seed += (u64) pass[i] * my_rand()` accumulates over descending `i`.
The result (`seed_shared`) depends only on the password. -/
def un_shuffleSeedGen (pass : List Nat) : Nat :=
  let pdm := pass.foldl (fun a c => a * c % 2 ^ 64) 1
  let x0 := lcgSeed ((20543 * (pdm % 2 ^ 32) + 81647) % 2 ^ 32)
  ((pass.take (pass.length % 256)).reverse.foldl
    (fun sx c => ((sx.1 + c * myRandVal sx.2) % 2 ^ 64, lcgNext sx.2))
    (0, x0)).1

/-! ## FASTQ "just plus" detection and the post-quality header byte

`compressFQ` writes, after the quality-score alphabet, the byte
`hasFQjustPlus() ? 253 : '\n'`; `decompressFQ` reads the quality
alphabet up to `'\n'` or `253` and clears `justPlus` exactly when the
terminator was `'\n'` (the member itself is declared in the absent
`EnDecrypto.h`; its initial value must be `true` for the `253` case to
leave it set, which is what the unpack routines rely on).  Each unpack
routine then emits `justPlus ? "+" : "+" + plusMore`. -/

/-- `EnDecrypto::hasFQjustPlus`: reads the third line of the input; the
result is `true` unless that line exists and is longer than one
character. -/
def hasFQjustPlus (lines : List (List Nat)) : Bool :=
  match lines[2]? with
  | some l => !(decide (l.length > 1))
  | none => true

/-- The byte `compressFQ` writes right after the quality-score
alphabet: `253` when `hasFQjustPlus`, otherwise `'\n'`. -/
def plusByteFQ (lines : List (List Nat)) : Nat :=
  if hasFQjustPlus lines then 253 else 10

/-- The `justPlus` flag as `decompressFQ` leaves it after reading the
byte `b` that terminated the quality-score alphabet: cleared only when
`b` is `'\n'`. -/
def justPlusDec (b : Nat) : Bool := !(b == 10)

/-- The third line each FASTQ unpack routine writes for a record with
header `hdr`: `"+"` when `justPlus` is set, `"+" ++ hdr` otherwise. -/
def plusLineOut (jp : Bool) (hdr : List Nat) : List Nat :=
  if jp then [43] else 43 :: hdr

/-- Claim C3's reading of the input, following the claim's words: the
`'+'` line (third line) repeats the header when it equals `'+'`
followed by the first line with its leading `'@'` removed. -/
def plusRepeatsHeader (lines : List (List Nat)) : Bool :=
  match lines[2]? with
  | some l => l == 43 :: (lines.headD []).drop 1
  | none => false

/-! ## Chunk framing (`packFA` / `packFQ` writers, `decompress*` readers)

Per block, the packer builds `context`, prepends
`253 ++ to_string(context.size()) ++ 254`, and appends to its private
temp file the line `THR=<t>` followed by the framed context and a
newline.  The reader (`decompressFA` / `decompressFQ` and the unpack
loops) consumes a `253`, the decimal digits up to `254`, and then
exactly that many payload bytes. -/

/-- Modelled from the spec: the constant `THR_ID_HDR` lives in the
absent `def.h`; §4.4 fixes the terminator line as `"THR=" <t>`.  These
are the bytes `THR_ID_HDR << to_string(t)` produces. -/
def thrLine (t : Nat) : List Nat := [84, 72, 82, 61] ++ decAscii t

/-- The length-framed chunk: `253`, the payload size in decimal ASCII,
`254`, then the payload (`contextSize` insertion in `packFA`/`packFQ`). -/
def frameChunk (ctx : List Nat) : List Nat :=
  [253] ++ decAscii ctx.length ++ [254] ++ ctx

/-- The bytes one block appends to the per-thread temp file:
`pkfile << THR_ID_HDR << to_string(t) << '\n'; pkfile << context << '\n';`
with `context` already carrying its length frame. -/
def chunkRecord (t : Nat) (ctx : List Nat) : List Nat :=
  (thrLine t ++ [10]) ++ (frameChunk ctx ++ [10])

/-- The reader side of the frame: a `253`, decimal digits up to `254`,
then exactly the announced number of payload bytes; returns
`(size, payload, remainder)`. -/
def parseFrame (bs : List Nat) : Option (Nat × List Nat × List Nat) :=
  match bs with
  | 253 :: rest =>
    match rest.dropWhile (fun b => b != 254) with
    | 254 :: payload =>
      let sz := decodeDec (rest.takeWhile (fun b => b != 254))
      some (sz, payload.take sz, payload.drop sz)
    | _ => none
  | _ => none

/-! ## FASTA packing (`EnDecrypto::packFA`)

Per line of a block: a header line (`line[0] == '>'`) first flushes the
accumulated sequence buffer (dropping its trailing separator byte)
through `packSeq_3to1` plus a `254`, then emits `253`, the packed
header, `254`; an empty line appends `252` to the sequence buffer; any
other line appends the line followed by `252` ("(char) 252 instead of
'\n' at the end of each seq line").  At block end a non-empty buffer is
flushed the same way. -/

/-- Modelled from the spec: the DNA alphabet order A, C, N, G, T of
§4.3 (`packSeq_3to1` is declared in the absent `pack.h`).  Index of a
base, `5` for any byte outside the alphabet. -/
def dnaIdx (c : Nat) : Nat :=
  if c = 65 then 0 else if c = 67 then 1 else if c = 78 then 2
  else if c = 71 then 3 else if c = 84 then 4 else 5

/-- Modelled from the spec: one triplet of `packSeq_3to1` per §4.3 —
`v = 25*d1 + 5*d2 + d3`; when an input symbol falls outside the
alphabet the packed byte is preceded by the penalty escape `255` and
followed by the offending literal bytes in order; a short trailing
group is X-padded (digit 5) with no literal emitted for the padding. -/
def packSeqTriplet (s : List Nat) : List Nat :=
  let v := 25 * dnaIdx (s.getD 0 88) + 5 * dnaIdx (s.getD 1 88) + dnaIdx (s.getD 2 88)
  let pen := s.filter (fun c => dnaIdx c == 5)
  if pen.isEmpty then [v] else 255 :: v :: pen

/-- Modelled from the spec: `packSeq_3to1` over non-overlapping
triplets, left to right (§4.3). -/
def packSeq_3to1 : List Nat → List Nat
  | [] => []
  | [a] => packSeqTriplet [a]
  | [a, b] => packSeqTriplet [a, b]
  | a :: b :: c :: rest => packSeqTriplet [a, b, c] ++ packSeq_3to1 rest

/-- Modelled from the spec: `pack_1to1`, the C0 identity encoder —
"one byte in, one byte out" (§4.2); used for a one-character header
alphabet. -/
def pack_1to1 (s : List Nat) : List Nat := s

/-- One `getline` iteration of the `packFA` block loop on the state
`(context, seq)`. -/
def packFA_step (packHdr : List Nat → List Nat) (st : List Nat × List Nat)
    (line : List Nat) : List Nat × List Nat :=
  if line.headD 0 = 62 then
    let ctx1 := if st.2.isEmpty then st.1
                else st.1 ++ packSeq_3to1 st.2.dropLast ++ [254]
    (ctx1 ++ [253] ++ packHdr (line.drop 1) ++ [254], [])
  else if line.isEmpty then (st.1, st.2 ++ [252])
  else (st.1, st.2 ++ line ++ [252])

/-- The `context` bytes `packFA` builds for one block of input lines
(before shuffling and length-framing). -/
def packFA_block (packHdr : List Nat → List Nat) (lines : List (List Nat)) : List Nat :=
  let st := lines.foldl (packFA_step packHdr) ([], [])
  if st.2.isEmpty then st.1 else st.1 ++ packSeq_3to1 st.2.dropLast ++ [254]

/-! ## The temp-file merge of `compressFA` (and `compressFQ`)

With one worker thread, the merge reads the thread-0 temp file line by
line; a line equal to `THR=0` ends the current chunk (and resets the
separator flag), any other line is appended to the packed file,
preceded by `'\n'` when it is not the first line since the last
terminator.  Payload bytes are arbitrary in `[0, 251]`, so a payload
that contains the line `THR=0` is swallowed as a terminator. -/

/-- `getline` decomposition of a byte string: maximal runs not
containing `'\n'`; a trailing delimiter yields no extra empty line
(the final `getline` fails at end of file).  Fuel keeps the recursion
structural. -/
def splitLinesAux : Nat → List Nat → List (List Nat)
  | 0, _ => []
  | _ + 1, [] => []
  | fuel + 1, b :: bs =>
    let l := (b :: bs).takeWhile (fun x => x != 10)
    match (b :: bs).dropWhile (fun x => x != 10) with
    | [] => [l]
    | _ :: rest => l :: splitLinesAux fuel rest

/-- All lines of a byte string, as successive `getline` calls return them. -/
def splitLines (bs : List Nat) : List (List Nat) := splitLinesAux (bs.length + 1) bs

/-- The single-thread merge loop of `compressFA` (lines 133-148): the
flag records whether a line was already emitted since the last
`THR=0` terminator. -/
def mergeLoop : List (List Nat) → Bool → List Nat
  | [], _ => []
  | l :: rest, prev =>
    if l = thrLine 0 then mergeLoop rest false
    else (if prev then [10] else []) ++ l ++ mergeLoop rest true

/-- A FASTA block whose packed context is collision-free: header `>h`
and sequence line `ACGT`. -/
def okBlockC1 : List (List Nat) := [[62, 104], [65, 67, 71, 84]]

/-- A FASTA block whose single sequence line
`ANAGCTNTNGCNNNCCTGANA` packs (per §4.3) to the bytes
`[10, 84, 72, 82, 61, 48, 10]`, i.e. the packed payload contains the
line `THR=0`. -/
def collideBlockC1 : List (List Nat) :=
  [[62, 104],
   [65, 78, 65, 71, 67, 84, 78, 84, 78, 71, 67, 78, 78, 78, 67, 67, 84, 71, 65, 78, 65]]

/-! ## Block-line sizing (`gatherHdrBs` / `gatherHdrQs`) -/

/-- Modelled from the spec: `BLOCK_SIZE` lives in the absent `def.h`;
§4.8 describes it as "a constant (≈ 64 KiB)". -/
def BLOCK_SIZE : Nat := 65536

/-- `BlockLine` as `gatherHdrBs` computes it for FASTA:
`BLOCK_SIZE / maxBLen`, replaced by 2 when zero. -/
def blockLineFA (maxBLen : Nat) : Nat :=
  if BLOCK_SIZE / maxBLen = 0 then 2 else BLOCK_SIZE / maxBLen

/-- `BlockLine` as `gatherHdrQs` computes it for FASTQ:
`4 * (BLOCK_SIZE / (maxHLen + 2*maxQLen))`, replaced by 4 when zero.
The inner division truncates before the factor 4 is applied. -/
def blockLineFQ (maxHLen maxQLen : Nat) : Nat :=
  if 4 * (BLOCK_SIZE / (maxHLen + 2 * maxQLen)) = 0 then 4
  else 4 * (BLOCK_SIZE / (maxHLen + 2 * maxQLen))

/-! ## Exit codes (`main` in cryfa.cpp, `EnDecrypto::decrypt`) -/

/-- The exit status of `main` in compress mode as a function of
`fileType`'s result (`'A' = 65`, `'Q' = 81`, `'S' = 83`, `'n' = 110`
for an invalid file): every branch of the switch, *including the
invalid-file error branch*, reaches `return 0`. -/
def mainCompressExit (ft : Nat) : Nat :=
  if ft = 65 then 0 else if ft = 81 then 0 else if ft = 83 then 0 else 0

/-- The watermark `decrypt` expects as the first line:
`"#cryfa v" <major> "." <minor> "\n"` (version numbers live in the
absent `def.h`, so they stay parameters). -/
def watermarkBytes (vmaj vmin : Nat) : List Nat :=
  [35, 99, 114, 121, 102, 97, 32, 118] ++ decAscii vmaj ++ [46] ++ decAscii vmin ++ [10]

/-- `EnDecrypto::decrypt` watermark check: when the first line (plus
`'\n'`) differs from the watermark it prints a diagnostic and calls
`exit(1)`; otherwise decryption proceeds (status 0 here stands for
"continue"). -/
def decryptExitCode (firstLine : List Nat) (vmaj vmin : Nat) : Nat :=
  if firstLine ++ [10] = watermarkBytes vmaj vmin then 0 else 1

/-! ## Thread-count truncation (`main`, option `-t`)

`cryptObj.n_threads = (byte) stoi(string(optarg));` — the parsed value
is cast to the 8-bit `byte`, and the packing loop
`for (t = 0; t != n_threads; ++t)` spawns exactly `n_threads`
threads. -/

/-- The effective `n_threads` for a decimal `-t` argument: `stoi`
followed by the truncating `(byte)` cast. -/
def nThreadsOpt (s : List Nat) : Nat := decodeDec s % 256

/-- The thread ids the packing loop spawns (`for (t = 0; t != n; ++t)`). -/
def spawnedThreads (n : Nat) : List Nat := List.range n

/-! ## Decompression shuffle flag (C10)

`decompressFA` runs `in.get(c); shuffled = (c == (char) 128);` on the
byte after the leading `127`, and `decompressFQ` on the first byte; the
unpack routines consult only this member.  `disable_shuffle` is a field
of the same object and in scope, but no decompression routine reads
it — `unpackChunkStage` keeps it as an (unused) argument to mirror
that. -/

/-- `shuffled = (c == (char) 128)`. -/
def shuffledFlag (c : Nat) : Bool := c == 128

/-- The unshuffle stage of `unpackHS` / `unpackHSQS` etc. on one chunk:
unshuffle exactly when `shuffled` is set; `disableShuffle` mirrors the
`disable_shuffle` member, which the decompression path never reads. -/
def unpackChunkStage (shuffled : Bool) (disableShuffle : Bool) (g : Nat → Nat)
    (chunk : List Nat) : List Nat :=
  if shuffled then unshufflePkd g chunk else chunk

/-! # Supporting lemmas -/

/-- `decAsciiAux` is independent of the fuel once the fuel exceeds the argument. -/
theorem decAsciiAux_congr (n : Nat) : ∀ f1 f2, n < f1 → n < f2 →
    decAsciiAux f1 n = decAsciiAux f2 n := by
  induction n using Nat.strong_induction_on with
  | _ n ih =>
    intro f1 f2 h1 h2
    cases f1 with
    | zero => omega
    | succ f1 =>
      cases f2 with
      | zero => omega
      | succ f2 =>
        by_cases h10 : n < 10
        · simp [decAsciiAux, h10]
        · have hdiv : n / 10 < n := Nat.div_lt_self (by omega) (by omega)
          show (if n < 10 then [48 + n] else decAsciiAux f1 (n / 10) ++ [48 + n % 10])
            = (if n < 10 then [48 + n] else decAsciiAux f2 (n / 10) ++ [48 + n % 10])
          rw [if_neg h10, if_neg h10, ih (n / 10) hdiv f1 f2 (by omega) (by omega)]

/-- Unfolding equation for `decAscii`. -/
theorem decAscii_eq (n : Nat) :
    decAscii n = if n < 10 then [48 + n] else decAscii (n / 10) ++ [48 + n % 10] := by
  by_cases h10 : n < 10
  · simp [decAscii, decAsciiAux, h10]
  · have hdiv : n / 10 < n := Nat.div_lt_self (by omega) (by omega)
    rw [show decAscii n = decAsciiAux n (n / 10) ++ [48 + n % 10] by
          simp [decAscii, decAsciiAux, h10]]
    rw [decAsciiAux_congr (n / 10) n (n / 10 + 1) (by omega) (by omega)]
    simp [decAscii, h10]

/-- Every byte of `decAscii n` is a decimal digit (`48 ≤ d < 58`). -/
theorem decAscii_digits (n : Nat) : ∀ d ∈ decAscii n, 48 ≤ d ∧ d < 58 := by
  induction n using Nat.strong_induction_on with
  | _ n ih =>
    rw [decAscii_eq]
    by_cases h10 : n < 10
    · simp only [if_pos h10, List.mem_singleton]
      intro d hd
      omega
    · simp only [if_neg h10, List.mem_append, List.mem_singleton]
      intro d hd
      rcases hd with hd | hd
      · exact ih (n / 10) (Nat.div_lt_self (by omega) (by omega)) d hd
      · subst hd; omega

/-- Folding the digit loop over `decAscii n` from any accumulator. -/
theorem decAscii_foldl (n : Nat) : ∀ a : Nat,
    List.foldl (fun acc d => acc * 10 + (d - 48)) a (decAscii n)
      = a * 10 ^ (decAscii n).length + n := by
  induction n using Nat.strong_induction_on with
  | _ n ih =>
    intro a
    rw [decAscii_eq]
    by_cases h10 : n < 10
    · simp only [if_pos h10, List.foldl_cons, List.foldl_nil, List.length_singleton, pow_one]
      omega
    · have hdiv : n / 10 < n := Nat.div_lt_self (by omega) (by omega)
      simp only [if_neg h10, List.foldl_append, List.foldl_cons, List.foldl_nil,
        List.length_append, List.length_singleton]
      rw [ih (n / 10) hdiv a]
      have h48 : 48 + n % 10 - 48 = n % 10 := by omega
      rw [h48, pow_succ]
      have hmod : n / 10 * 10 + n % 10 = n := by omega
      ring_nf
      omega

/-- `decodeDec` recovers the value rendered by `decAscii`: the reader's
`stoull` inverts the writer's `to_string`. -/
theorem decodeDec_decAscii (n : Nat) : decodeDec (decAscii n) = n := by
  unfold decodeDec
  rw [decAscii_foldl n 0]
  simp

/-! ## Lemmas for the key/IV derivation (claim C2) -/

/-- `my_rand` outputs are below `2 ^ 31`. -/
theorem myRandVal_lt (x : Nat) : myRandVal x < 2 ^ 31 := by
  have h : lcgNext x < M31 := Nat.mod_lt _ (by norm_num [M31])
  have : M31 < 2 ^ 31 := by norm_num [M31]
  unfold myRandVal
  omega

/-- When no wrap can occur, the imperative `u64` loop computes the
plain sum `s + sumLoop l x`. -/
theorem seedLoop_eq_sum : ∀ (l : List Nat) (s x : Nat),
    s + sumLoop l x < 2 ^ 64 → seedLoop l s x = s + sumLoop l x := by
  intro l
  induction l with
  | nil => intro s x _; simp [seedLoop, sumLoop]
  | cons c rest ih =>
    intro s x h
    have hsum : sumLoop (c :: rest) x
        = c * myRandVal x + myRandVal (lcgNext x) + sumLoop rest (lcgNext (lcgNext x)) := rfl
    rw [hsum] at h
    have hstep : s + (c * myRandVal x + myRandVal (lcgNext x)) < 2 ^ 64 := by omega
    show seedLoop rest ((s + (c * myRandVal x + myRandVal (lcgNext x))) % 2 ^ 64)
        (lcgNext (lcgNext x)) = _
    rw [Nat.mod_eq_of_lt hstep]
    rw [ih (s + (c * myRandVal x + myRandVal (lcgNext x))) (lcgNext (lcgNext x)) (by omega)]
    rw [hsum]
    omega

/-- Bound on the loop sum for byte-valued inputs. -/
theorem sumLoop_le : ∀ (l : List Nat) (x : Nat), (∀ c ∈ l, c < 256) →
    sumLoop l x ≤ l.length * 2 ^ 40 := by
  intro l
  induction l with
  | nil => intro x _; simp [sumLoop]
  | cons c rest ih =>
    intro x hc
    have hc0 : c < 256 := hc c (by simp)
    have h1 : myRandVal x < 2 ^ 31 := myRandVal_lt x
    have h2 : myRandVal (lcgNext x) < 2 ^ 31 := myRandVal_lt (lcgNext x)
    have h3 : c * myRandVal x ≤ 255 * (2 ^ 31 - 1) := by
      calc c * myRandVal x ≤ 255 * myRandVal x := Nat.mul_le_mul_right _ (by omega)
        _ ≤ 255 * (2 ^ 31 - 1) := Nat.mul_le_mul_left _ (by omega)
    have h4 : sumLoop rest (lcgNext (lcgNext x)) ≤ rest.length * 2 ^ 40 :=
      ih (lcgNext (lcgNext x)) (fun d hd => hc d (by simp [hd]))
    show c * myRandVal x + myRandVal (lcgNext x) + sumLoop rest (lcgNext (lcgNext x))
        ≤ (rest.length + 1) * 2 ^ 40
    have : (rest.length + 1) * 2 ^ 40 = rest.length * 2 ^ 40 + 2 ^ 40 := by ring
    omega

/-- Additive folds split off their initial accumulator. -/
theorem foldl_add_init2 (g1 g2 : Nat → Nat) : ∀ (r : List Nat) (init : Nat),
    r.foldl (fun s k => s + g1 k + g2 k) init
      = init + r.foldl (fun s k => s + g1 k + g2 k) 0 := by
  intro r
  induction r with
  | nil => intro init; simp
  | cons k r ih =>
    intro init
    rw [List.foldl_cons, List.foldl_cons, ih (init + g1 k + g2 k), ih (0 + g1 k + g2 k)]
    omega

/-- The loop sum as an indexed sum over the `my_rand` output stream. -/
theorem sumLoop_eq_fold : ∀ (l : List Nat) (x : Nat),
    sumLoop l x = (List.range l.length).foldl
      (fun s k => s + l.getD k 0 * randAt x (2 * k) + randAt x (2 * k + 1)) 0 := by
  intro l
  induction l with
  | nil => intro x; simp [sumLoop]
  | cons c rest ih =>
    intro x
    rw [List.length_cons, List.range_succ_eq_map, List.foldl_cons, List.foldl_map]
    have h0 : (0 + (c :: rest).getD 0 0 * randAt x (2 * 0) + randAt x (2 * 0 + 1))
        = c * myRandVal x + myRandVal (lcgNext x) := by
      simp [randAt, Function.iterate_one]
    have hstep : (fun (s k : Nat) =>
          s + (c :: rest).getD (Nat.succ k) 0 * randAt x (2 * Nat.succ k)
            + randAt x (2 * Nat.succ k + 1))
        = fun (s k : Nat) =>
          s + rest.getD k 0 * randAt (lcgNext (lcgNext x)) (2 * k)
            + randAt (lcgNext (lcgNext x)) (2 * k + 1) := by
      funext s k
      have e3 : ∀ j, randAt x (j + 2) = randAt (lcgNext (lcgNext x)) j := by
        intro j
        unfold randAt
        rw [Function.iterate_add_apply]
        rfl
      have e2 : 2 * Nat.succ k + 1 = 2 * k + 1 + 2 := by omega
      have e1 : 2 * Nat.succ k = 2 * k + 2 := by omega
      rw [e2, e1, e3 (2 * k), e3 (2 * k + 1)]
      simp
    rw [hstep, foldl_add_init2, h0, ← ih (lcgNext (lcgNext x))]
    show sumLoop (c :: rest) x = _
    rw [show sumLoop (c :: rest) x
        = c * myRandVal x + myRandVal (lcgNext x) + sumLoop rest (lcgNext (lcgNext x)) from rfl]

/-- The derived formula is the plain-sum reading of the loop. -/
theorem derivedSeedFormula_eq (pwd : List Nat) (x0 : Nat) :
    derivedSeedFormula pwd x0 = sumLoop (loopBytes pwd) x0 % 4294967295 := by
  unfold derivedSeedFormula
  rw [sumLoop_eq_fold]

/-! # Claim theorems -/

/-- Claim C2, counterexample: for the 8-byte password "passw0rd" the
32-bit key seed the code computes (under either evaluation order of the
two `my_rand()` calls) differs from the seed the claimed formula
`seed = Σ password[i] * (rand() + rand()) mod 2^32 - 1` yields. -/
theorem c2_formula_counterexample :
    buildKeySeed [112, 97, 115, 115, 119, 48, 114, 100]
        ≠ keySeedSpecC2 [112, 97, 115, 115, 119, 48, 114, 100]
      ∧ buildKeySeedR [112, 97, 115, 115, 119, 48, 114, 100]
        ≠ keySeedSpecC2 [112, 97, 115, 115, 119, 48, 114, 100] := by
  constructor
  · decide
  · decide

/-- Claim C2, amended: for every password of length 8..255 with byte
values below 256, the AES key seed is obtained by seeding the minstd
engine with `24593 * (password[0] * password[2]) + 49157` and summing
`password[i] * rand() + rand()` (the second `rand()` is a separate
addend, not a factor) over descending `i`, reduced `mod 2^32 - 1`; the
IV seed likewise with salts `(7919, 75653)` and
`password[2] * password[5]`. -/
theorem c2_derivation_amended (pwd : List Nat) (hlen8 : 8 ≤ pwd.length)
    (hlen : pwd.length ≤ 255) (hbytes : ∀ c ∈ pwd, c < 256) :
    buildKeySeed pwd = derivedSeedFormula pwd (lcgSeed (keySrandArg pwd))
      ∧ buildIVSeed pwd = derivedSeedFormula pwd (lcgSeed (ivSrandArg pwd)) := by
  have hmem : ∀ c ∈ loopBytes pwd, c < 256 := by
    intro c hc
    unfold loopBytes at hc
    rw [List.mem_reverse] at hc
    exact hbytes c (List.mem_of_mem_take hc)
  have hlb : (loopBytes pwd).length ≤ 255 := by
    unfold loopBytes
    rw [List.length_reverse, List.length_take]
    omega
  have hbound : ∀ x : Nat, sumLoop (loopBytes pwd) x < 2 ^ 64 := by
    intro x
    have h1 := sumLoop_le (loopBytes pwd) x hmem
    have h2 : (loopBytes pwd).length * 2 ^ 40 ≤ 255 * 2 ^ 40 :=
      Nat.mul_le_mul_right _ hlb
    omega
  constructor
  · unfold buildKeySeed
    rw [seedLoop_eq_sum (loopBytes pwd) 0 (lcgSeed (keySrandArg pwd))
          (by have := hbound (lcgSeed (keySrandArg pwd)); omega),
        derivedSeedFormula_eq]
    simp
  · unfold buildIVSeed
    rw [seedLoop_eq_sum (loopBytes pwd) 0 (lcgSeed (ivSrandArg pwd))
          (by have := hbound (lcgSeed (ivSrandArg pwd)); omega),
        derivedSeedFormula_eq]
    simp

/-- Witness for the amended claim C2 at the password "passw0rd". -/
theorem c2_derivation_amended_witness :
    buildKeySeed [112, 97, 115, 115, 119, 48, 114, 100]
        = derivedSeedFormula [112, 97, 115, 115, 119, 48, 114, 100]
            (lcgSeed (keySrandArg [112, 97, 115, 115, 119, 48, 114, 100]))
      ∧ buildIVSeed [112, 97, 115, 115, 119, 48, 114, 100]
        = derivedSeedFormula [112, 97, 115, 115, 119, 48, 114, 100]
            (lcgSeed (ivSrandArg [112, 97, 115, 115, 119, 48, 114, 100])) :=
  c2_derivation_amended [112, 97, 115, 115, 119, 48, 114, 100]
    (by decide) (by decide) (by decide)

/-! ## Lemmas for the shuffler (claim C6) -/

/-- Swapping preserves the length. -/
theorem swapL_length {α : Type} (l : List α) (i j : Nat) :
    (swapL l i j).length = l.length := by
  unfold swapL
  cases hi : l[i]? <;> cases hj : l[j]? <;> simp

/-- The Fisher-Yates pass preserves the length. -/
theorem fyFrom_length {α : Type} (g : Nat → Nat) :
    ∀ (k : Nat) (l : List α), (fyFrom g k l).length = l.length := by
  intro k
  induction k with
  | zero => intro l; rfl
  | succ k ih =>
    intro l
    rw [show fyFrom g (k + 1) l
        = fyFrom g k (swapL l (k + 1) (g (k + 1) % (k + 2))) from rfl]
    rw [ih, swapL_length]

/-- Swapping commutes with `map`. -/
theorem swapL_map {α β : Type} (f : α → β) (l : List α) (i j : Nat) :
    swapL (l.map f) i j = (swapL l i j).map f := by
  unfold swapL
  rw [List.getElem?_map, List.getElem?_map]
  cases hi : l[i]? with
  | none => cases hj : l[j]? <;> simp
  | some x =>
    cases hj : l[j]? with
    | none => simp
    | some y => simp [List.map_set]

/-- The Fisher-Yates pass commutes with `map`: it acts on positions
only. -/
theorem fyFrom_map {α β : Type} (f : α → β) (g : Nat → Nat) :
    ∀ (k : Nat) (l : List α), fyFrom g k (l.map f) = (fyFrom g k l).map f := by
  intro k
  induction k with
  | zero => intro l; rfl
  | succ k ih =>
    intro l
    rw [show fyFrom g (k + 1) (l.map f)
        = fyFrom g k (swapL (l.map f) (k + 1) (g (k + 1) % (k + 2))) from rfl]
    rw [swapL_map, ih]
    rfl

/-- Any list is the image of `range` under positional lookup. -/
theorem map_getD_range {α : Type} (l : List α) (d : α) :
    (List.range l.length).map (fun i => l.getD i d) = l := by
  induction l with
  | nil => simp
  | cons a l ih =>
    rw [List.length_cons, List.range_succ_eq_map, List.map_cons, List.map_map]
    have hcomp : ((fun i => (a :: l).getD i d) ∘ Nat.succ) = fun i => l.getD i d := by
      funext i
      simp
    rw [hcomp, ih]
    simp

/-- Positional description of a swap on in-range positions. -/
theorem swapL_getElem? {α : Type} (l : List α) (a b : Nat) (ha : a < l.length)
    (hb : b < l.length) (m : Nat) :
    (swapL l a b)[m]? = if m = b then l[a]? else if m = a then l[b]? else l[m]? := by
  have hia : l[a]? = some l[a] := List.getElem?_eq_getElem ha
  have hib : l[b]? = some l[b] := List.getElem?_eq_getElem hb
  have hsw : swapL l a b = (l.set a l[b]).set b l[a] := by
    unfold swapL
    rw [hia, hib]
  rw [hsw]
  by_cases hmb : m = b
  · subst hmb
    rw [if_pos rfl, List.getElem?_set_eq_of_lt _ (by simp [hb]), hia]
  · rw [if_neg hmb,
        List.getElem?_set_ne (fun h => hmb h.symm)]
    by_cases hma : m = a
    · subst hma
      rw [if_pos rfl, List.getElem?_set_eq_of_lt _ (by simp [ha]), hib]
    · rw [if_neg hma, List.getElem?_set_ne (fun h => hma h.symm)]

/-- A swap on in-range positions preserves membership. -/
theorem mem_swapL {α : Type} (l : List α) (a b : Nat) (ha : a < l.length)
    (hb : b < l.length) {x : α} (hx : x ∈ l) : x ∈ swapL l a b := by
  obtain ⟨m, hm⟩ := List.getElem?_of_mem hx
  by_cases hma : m = a
  · exact List.getElem?_mem (show (swapL l a b)[b]? = some x by
      rw [swapL_getElem? l a b ha hb b, if_pos rfl, ← hma]; exact hm)
  · by_cases hmb : m = b
    · exact List.getElem?_mem (show (swapL l a b)[a]? = some x by
        rw [swapL_getElem? l a b ha hb a]
        by_cases hab : a = b
        · rw [if_pos hab, hab, ← hmb]
          exact hm
        · rw [if_neg hab, if_pos rfl, ← hmb]
          exact hm)
    · exact List.getElem?_mem (show (swapL l a b)[m]? = some x by
        rw [swapL_getElem? l a b ha hb m, if_neg hmb, if_neg hma]; exact hm)

/-- Every element survives the Fisher-Yates pass. -/
theorem fyFrom_mem {α : Type} (g : Nat → Nat) :
    ∀ (k : Nat) (l : List α), k < l.length → ∀ x ∈ l, x ∈ fyFrom g k l := by
  intro k
  induction k with
  | zero => intro l _ x hx; exact hx
  | succ k ih =>
    intro l hk x hx
    rw [show fyFrom g (k + 1) l
        = fyFrom g k (swapL l (k + 1) (g (k + 1) % (k + 2))) from rfl]
    have hpart : g (k + 1) % (k + 2) < l.length := by
      have : g (k + 1) % (k + 2) < k + 2 := Nat.mod_lt _ (by omega)
      omega
    apply ih
    · rw [swapL_length]
      omega
    · exact mem_swapL l (k + 1) _ hk hpart hx

/-- Zipping a list with its own image pairs each element with its
image. -/
theorem zip_map_self {α β : Type} (f : α → β) (vs : List α) :
    vs.zip (vs.map f) = vs.map (fun v => (v, f v)) := by
  induction vs with
  | nil => rfl
  | cons v vs ih => simp [ih]

/-- Scattering the values `l.getD v d` to positions `v` drawn from
`vs`: positions covered by `vs` end up holding the value `l` has
there, other positions keep the buffer's content. -/
theorem scatter_getElem? {α : Type} (l : List α) (d : α) :
    ∀ (vs : List Nat) (out : List α), out.length = l.length → ∀ (j : Nat),
      (vs.foldl (fun acc v => acc.set v (l.getD v d)) out)[j]?
        = if j ∈ vs then l[j]? else out[j]? := by
  intro vs
  induction vs with
  | nil => intro out _ j; simp
  | cons v vs ih =>
    intro out hlen j
    rw [List.foldl_cons]
    rw [ih (out.set v (l.getD v d)) (by simp [hlen]) j]
    by_cases hjvs : j ∈ vs
    · rw [if_pos hjvs, if_pos (by simp [hjvs])]
    · by_cases hjv : j = v
      · subst hjv
        rw [if_neg hjvs, if_pos (by simp)]
        by_cases hlt : j < out.length
        · rw [List.getElem?_set_eq_of_lt _ hlt]
          have hjl : j < l.length := by omega
          rw [List.getElem?_eq_getElem hjl]
          have : l.getD j d = l[j] := by
            rw [List.getD_eq_getElem?_getD, List.getElem?_eq_getElem hjl]
            rfl
          rw [this]
        · have h1 : (out.set j (l.getD j d))[j]? = none := by
            rw [List.getElem?_eq_none_iff]
            simp
            omega
          have h2 : l[j]? = none := by
            rw [List.getElem?_eq_none_iff]
            omega
          rw [h1, h2]
      · rw [if_neg hjvs, if_neg (by simp [hjv, hjvs]),
            List.getElem?_set_ne (fun h => hjv h.symm)]

/-- Claim C6: shuffling a chunk and then unshuffling it with the same
password-derived draw stream `g` (both sides call `un_shuffleSeedGen`
on the same password, so they seed identical generators) restores
every byte string. -/
theorem c6_shuffle_roundtrip (g : Nat → Nat) (l : List Nat) :
    unshufflePkd g (shufflePkd g l) = l := by
  rcases l with _ | ⟨a, l0⟩
  · rfl
  · have hpos : 0 < (a :: l0).length := by simp
    have hlen : (shufflePkd g (a :: l0)).length = (a :: l0).length := by
      unfold shufflePkd
      rw [fyFrom_length]
    have hrep : shufflePkd g (a :: l0)
        = (fyFrom g ((a :: l0).length - 1) (List.range (a :: l0).length)).map
            (fun i => (a :: l0).getD i 0) := by
      unfold shufflePkd
      have h1 : fyFrom g ((a :: l0).length - 1) (a :: l0)
          = fyFrom g ((a :: l0).length - 1)
              ((List.range (a :: l0).length).map (fun i => (a :: l0).getD i 0)) := by
        rw [map_getD_range]
      rw [h1, fyFrom_map]
    show ((fyFrom g ((shufflePkd g (a :: l0)).length - 1)
            (List.range (shufflePkd g (a :: l0)).length)).zip
          (shufflePkd g (a :: l0))).foldl (fun acc p => acc.set p.1 p.2)
          (shufflePkd g (a :: l0)) = a :: l0
    rw [hlen]
    rw [hrep, zip_map_self, List.foldl_map]
    apply List.ext_getElem?
    intro j
    have houtlen :
        ((fyFrom g ((a :: l0).length - 1) (List.range (a :: l0).length)).map
          (fun i => (a :: l0).getD i 0)).length = (a :: l0).length := by
      rw [List.length_map, fyFrom_length, List.length_range]
    rw [scatter_getElem? (a :: l0) 0
          (fyFrom g ((a :: l0).length - 1) (List.range (a :: l0).length))
          ((fyFrom g ((a :: l0).length - 1) (List.range (a :: l0).length)).map
            (fun i => (a :: l0).getD i 0)) houtlen j]
    by_cases hj : j < (a :: l0).length
    · have hmem : j ∈ fyFrom g ((a :: l0).length - 1) (List.range (a :: l0).length) := by
        apply fyFrom_mem
        · rw [List.length_range]
          omega
        · exact List.mem_range.mpr hj
      rw [if_pos hmem]
    · split
      · rfl
      · rw [List.getElem?_eq_none_iff.mpr (by omega),
            List.getElem?_eq_none_iff.mpr (by omega)]

/-! ## Lemmas for chunk framing (claim C4) -/

/-- `takeWhile` stops exactly at the first `254` after a `254`-free
run. -/
theorem takeWhile_until_254 (xs ys : List Nat) (hxs : ∀ x ∈ xs, x ≠ 254) :
    (xs ++ 254 :: ys).takeWhile (fun b => b != 254) = xs := by
  induction xs with
  | nil => simp [List.takeWhile_cons]
  | cons x xs ih =>
    have hx : x ≠ 254 := hxs x (by simp)
    rw [List.cons_append, List.takeWhile_cons]
    simp only [bne_iff_ne, ne_eq, hx, not_false_eq_true, if_true]
    rw [ih (fun y hy => hxs y (by simp [hy]))]

/-- `dropWhile` consumes exactly the `254`-free run. -/
theorem dropWhile_until_254 (xs ys : List Nat) (hxs : ∀ x ∈ xs, x ≠ 254) :
    (xs ++ 254 :: ys).dropWhile (fun b => b != 254) = 254 :: ys := by
  induction xs with
  | nil => simp [List.dropWhile_cons]
  | cons x xs ih =>
    have hx : x ≠ 254 := hxs x (by simp)
    rw [List.cons_append, List.dropWhile_cons]
    simp only [bne_iff_ne, ne_eq, hx, not_false_eq_true, if_true]
    exact ih (fun y hy => hxs y (by simp [hy]))

/-- The reader recovers exactly the framed payload and leaves the
remainder of the stream untouched. -/
theorem parseFrame_frameChunk (ctx rest : List Nat) :
    parseFrame (frameChunk ctx ++ rest) = some (ctx.length, ctx, rest) := by
  have hds : ∀ x ∈ decAscii ctx.length, x ≠ 254 := by
    intro x hx
    have := decAscii_digits ctx.length x hx
    omega
  have hshape : frameChunk ctx ++ rest
      = 253 :: (decAscii ctx.length ++ 254 :: (ctx ++ rest)) := by
    unfold frameChunk
    simp
  rw [hshape]
  simp only [parseFrame]
  rw [dropWhile_until_254 (decAscii ctx.length) (ctx ++ rest) hds,
      takeWhile_until_254 (decAscii ctx.length) (ctx ++ rest) hds]
  simp only [decodeDec_decAscii]
  rw [List.take_left, List.drop_left]

/-! ## Lemmas for FASTA packing (claim C5) -/

/-- A non-header line only extends the sequence buffer by the line and
its `252` separator. -/
theorem packFA_step_seq (p : List Nat → List Nat) (ctx seq line : List Nat)
    (h : line.headD 0 ≠ 62) :
    packFA_step p (ctx, seq) line = (ctx, seq ++ (line ++ [252])) := by
  unfold packFA_step
  rw [if_neg h]
  by_cases he : line.isEmpty
  · rw [if_pos he]
    have hl : line = [] := List.isEmpty_iff.mp he
    simp [hl]
  · rw [if_neg he]
    simp [List.append_assoc]

/-- Folding `packFA_step` over a run of non-header lines only grows the
sequence buffer: each line contributes itself plus a `252`. -/
theorem packFA_foldl_seq (p : List Nat → List Nat) :
    ∀ (ls : List (List Nat)) (ctx seq : List Nat),
      (∀ l ∈ ls, l.headD 0 ≠ 62) →
      ls.foldl (packFA_step p) (ctx, seq)
        = (ctx, seq ++ (ls.map (fun l => l ++ [252])).join) := by
  intro ls
  induction ls with
  | nil => intro ctx seq _; simp
  | cons l ls ih =>
    intro ctx seq h
    rw [List.foldl_cons, packFA_step_seq p ctx seq l (h l (by simp)),
        ih ctx (seq ++ (l ++ [252])) (fun x hx => h x (by simp [hx]))]
    simp [List.append_assoc]

/-! # Remaining claim theorems -/

/-- Claim C1 (divergence theorem): with the spec-modelled DNA codec, the
collision-free FASTA block round-trips through the `compressFA`
temp-file merge (the packed file receives exactly the framed context),
but the block whose packed payload contains the line `THR=0` is
truncated by the merge: the packed file does not receive the context
that was written, so the compressed stream is corrupt and decompression
cannot reproduce the input. -/
theorem c1_roundtrip_merge_bug :
    mergeLoop (splitLines (chunkRecord 0 (packFA_block pack_1to1 okBlockC1))) false
        = frameChunk (packFA_block pack_1to1 okBlockC1)
      ∧ mergeLoop (splitLines (chunkRecord 0 (packFA_block pack_1to1 collideBlockC1))) false
        ≠ frameChunk (packFA_block pack_1to1 collideBlockC1) := by
  constructor
  · decide
  · decide

/-- Claim C3, counterexample: on the FASTQ input `@r1 / ACGN / + / !!!!`
the byte written after the quality alphabet is `253` although the `+`
line does not repeat the header — `253` marks "`+` alone", the opposite
of what the claim states. -/
theorem c3_plus_byte_counterexample :
    plusByteFQ [[64, 114, 49], [65, 67, 71, 78], [43], [33, 33, 33, 33]] = 253
      ∧ plusRepeatsHeader [[64, 114, 49], [65, 67, 71, 78], [43], [33, 33, 33, 33]] = false := by
  constructor
  · decide
  · decide

/-- Claim C3, amended: the byte after the quality alphabet is `253`
exactly when the third input line is `+` alone (not longer than one
character, per `hasFQjustPlus`), and `'\n'` when that line is longer;
on decompression the recorded flag is recovered from that byte and the
header is re-emitted after `+` exactly when the byte was `'\n'`, i.e.
not `253`. -/
theorem c3_plus_byte_amended (lines : List (List Nat)) (hdr : List Nat) :
    (plusByteFQ lines = 253 ↔ hasFQjustPlus lines = true)
      ∧ justPlusDec (plusByteFQ lines) = hasFQjustPlus lines
      ∧ plusLineOut (justPlusDec (plusByteFQ lines)) hdr
          = (if hasFQjustPlus lines then [43] else 43 :: hdr) := by
  unfold plusByteFQ justPlusDec plusLineOut
  cases h : hasFQjustPlus lines <;> simp

/-- Claim C4, counterexample: the bytes `packFA` writes for a chunk
(thread 0, context `[65]`) *begin* with the line `THR=0`; they do not
end with it under any reading of "ends with a line `THR=<t>`". -/
theorem c4_chunk_frame_counterexample :
    ((thrLine 0 ++ [10]).isPrefixOf (chunkRecord 0 [65]) = true)
      ∧ ((thrLine 0 ++ [10]).isSuffixOf (chunkRecord 0 [65]) = false)
      ∧ (([10] ++ thrLine 0).isSuffixOf (chunkRecord 0 [65]) = false)
      ∧ ((thrLine 0).isSuffixOf (chunkRecord 0 [65]) = false) := by
  refine ⟨?_, ?_, ?_, ?_⟩ <;> decide

/-- Claim C4, amended: each chunk is written to the per-thread temp
file as the line `THR=<t>` *followed by* the framed payload
`253 <len-decimal-ASCII> 254 <payload>` and a newline; the reader
recovers the exact payload length and payload from the framing
prefix. -/
theorem c4_chunk_frame_amended (t : Nat) (ctx rest : List Nat) :
    chunkRecord t ctx = thrLine t ++ [10] ++ frameChunk ctx ++ [10]
      ∧ parseFrame (frameChunk ctx ++ rest) = some (ctx.length, ctx, rest) := by
  constructor
  · unfold chunkRecord
    simp [List.append_assoc]
  · exact parseFrame_frameChunk ctx rest

/-- Claim C5, counterexample: the block `>h / ACGT / ACG` has no blank
input line, yet its packed context contains the byte `252` (the
separator appended after every sequence line survives as a penalty
literal); and it has three logical lines but only two `254` bytes (one
after the packed header, one after the packed two-line sequence
block). -/
theorem c5_byte252_counterexample :
    (packFA_block pack_1to1 [[62, 104], [65, 67, 71, 84], [65, 67, 71]]).count 252 = 1
      ∧ (packFA_block pack_1to1 [[62, 104], [65, 67, 71, 84], [65, 67, 71]]).count 254 = 2
      ∧ (∀ l ∈ [[62, 104], [65, 67, 71, 84], [65, 67, 71]], l ≠ ([] : List Nat)) := by
  refine ⟨?_, ?_, ?_⟩ <;> decide

/-- Claim C5, amended: for a non-empty block of non-header lines, the
packed context is a single `packSeq_3to1` run terminated by one `254`;
the pre-pack buffer carries a `252` in place of the newline of *every*
sequence line (a blank line contributes a lone `252`), with the final
`252` of the block removed before packing. -/
theorem c5_packing_amended (p : List Nat → List Nat) (ls : List (List Nat))
    (h1 : ls ≠ []) (h2 : ∀ l ∈ ls, l.headD 0 ≠ 62) :
    packFA_block p ls
      = packSeq_3to1 ((ls.map (fun l => l ++ [252])).join).dropLast ++ [254] := by
  unfold packFA_block
  rw [packFA_foldl_seq p ls [] [] h2]
  have hne : ((ls.map (fun l => l ++ [252])).join) ≠ [] := by
    rcases ls with _ | ⟨l, ls0⟩
    · exact absurd rfl h1
    · simp
  simp [hne]

/-- Witness for the amended claim C5 at the block `AC / <blank>`. -/
theorem c5_packing_amended_witness :
    packFA_block pack_1to1 [[65, 67], []]
      = packSeq_3to1 ((([[65, 67], []] : List (List Nat)).map
          (fun l => l ++ [252])).join).dropLast ++ [254] :=
  c5_packing_amended pack_1to1 [[65, 67], []] (by decide) (by decide)

/-- Claim C7, counterexample: with the spec's `BLOCK_SIZE = 65536`, a
FASTA file whose longest base line has 40000 characters gets
`BlockLine = 1`, below the claimed floor of 2; and for FASTQ the code
computes `4 * (BLOCK_SIZE / D)`, not `(4 * BLOCK_SIZE) / D`: at
`maxHdrLen = maxQLen = 1` the two differ (87380 vs 87381). -/
theorem c7_blockline_counterexample :
    blockLineFA 40000 < 2 ∧ blockLineFQ 1 1 ≠ 4 * BLOCK_SIZE / (1 + 2 * 1) := by
  constructor
  · decide
  · decide

/-- Claim C7, amended: `BlockLine` is `BLOCK_SIZE / maxBaseLineWidth`
for FASTA when that quotient is nonzero and 2 otherwise (so it can be
1, below the claimed floor of 2, but is always at least 1); for FASTQ
it is `4 * (BLOCK_SIZE / (maxHdrLen + 2 * maxQLen))` — the inner
division truncating before the factor 4 — when nonzero and 4
otherwise, hence always a positive multiple of 4. -/
theorem c7_blockline_amended (m mH mQ : Nat) (hm : 0 < m) (hd : 0 < mH + 2 * mQ) :
    blockLineFA m = (if BLOCK_SIZE / m = 0 then 2 else BLOCK_SIZE / m)
      ∧ 1 ≤ blockLineFA m
      ∧ blockLineFQ mH mQ = (if 4 * (BLOCK_SIZE / (mH + 2 * mQ)) = 0 then 4
          else 4 * (BLOCK_SIZE / (mH + 2 * mQ)))
      ∧ 4 ≤ blockLineFQ mH mQ
      ∧ blockLineFQ mH mQ % 4 = 0 := by
  refine ⟨rfl, ?_, rfl, ?_, ?_⟩
  · unfold blockLineFA
    generalize BLOCK_SIZE / m = q
    split <;> omega
  · unfold blockLineFQ
    generalize BLOCK_SIZE / (mH + 2 * mQ) = q
    split <;> omega
  · unfold blockLineFQ
    generalize BLOCK_SIZE / (mH + 2 * mQ) = q
    split <;> omega

/-- Witness for the amended claim C7 at widths 3 (FASTA) and 1, 1
(FASTQ). -/
theorem c7_blockline_amended_witness :
    blockLineFA 3 = (if BLOCK_SIZE / 3 = 0 then 2 else BLOCK_SIZE / 3)
      ∧ 1 ≤ blockLineFA 3
      ∧ blockLineFQ 1 1 = (if 4 * (BLOCK_SIZE / (1 + 2 * 1)) = 0 then 4
          else 4 * (BLOCK_SIZE / (1 + 2 * 1)))
      ∧ 4 ≤ blockLineFQ 1 1
      ∧ blockLineFQ 1 1 % 4 = 0 :=
  c7_blockline_amended 3 1 1 (by decide) (by decide)

/-- Claim C8 (divergence theorem): an input that is neither FASTA nor
FASTQ (`fileType = 'n' = 110`) makes `main` print its error diagnostic
and still `return 0` — not the claimed status 1 — while the watermark
check in `decrypt` does abort with status 1 whenever the first line
was removed or altered (here: removed, so the line read is empty). -/
theorem c8_exit_code_bug :
    mainCompressExit 110 = 0
      ∧ (∀ vmaj vmin : Nat, decryptExitCode [] vmaj vmin = 1) := by
  constructor
  · rfl
  · intro vmaj vmin
    unfold decryptExitCode
    rw [if_neg]
    unfold watermarkBytes
    simp

/-- Claim C9: `-t 256` parses to 256, the `(byte)` cast truncates it to
0, and the packing loop `for (t = 0; t != n_threads; ++t)` then spawns
no thread at all. -/
theorem c9_thread_truncation :
    decodeDec [50, 53, 54] = 256
      ∧ nThreadsOpt [50, 53, 54] = 0
      ∧ spawnedThreads (nThreadsOpt [50, 53, 54]) = [] := by
  refine ⟨?_, ?_, ?_⟩ <;> decide

/-- Claim C10: the unshuffle decision of the decompression path depends
only on the recorded shuffle byte (`shuffled = (c == 128)`); the
`disable_shuffle` member (the `-s` flag) does not influence the chunk
that is reconstructed. -/
theorem c10_unshuffle_header_flag (b : Nat) (ds1 ds2 : Bool) (g : Nat → Nat)
    (chunk : List Nat) :
    unpackChunkStage (shuffledFlag b) ds1 g chunk
        = unpackChunkStage (shuffledFlag b) ds2 g chunk
      ∧ (shuffledFlag b = true ↔ b = 128) := by
  constructor
  · rfl
  · simp [shuffledFlag]

end Cryfa
